import Mathlib

/-! Verification of the unmanic subtitle-extraction plugins.

Shallow embedding of the two plugins
`extract_ass_subtitles_to_files_soultaco83/plugin.py` and
`extract_srt_subtitles_to_files_soultaco83/plugin.py`.

Python strings are modelled as `List Char`; Python `str.lower` as
`Char.toLower` mapped over the characters; the regex `\s` as
`Char.isWhitespace`.  File-system facts consumed by the plugins (the
`.unmanic` sidecar record, the result of probing, the glob for existing
sidecar artifacts) are modelled as fields of a `FileState` record, since the
code only ever branches on their truthiness/content.
-/

namespace ExtractSubs

/-- Convert a Lean string literal to the `List Char` representation used
throughout this development. -/
def cs (s : String) : List Char := s.data

/-- The ASCII single-quote character (used in ffmpeg diagnostics). -/
def squote : Char := Char.ofNat 39

/-- Model of Python `str.lower()` applied to one character. -/
def lowerStr (s : List Char) : List Char := s.map Char.toLower

/-- Model of Python `str.strip()` (drop surrounding whitespace). -/
def pyStrip (s : List Char) : List Char :=
  ((s.dropWhile Char.isWhitespace).reverse.dropWhile Char.isWhitespace).reverse

/-- Model of Python `str.split(sep)` for a single-character separator:
splits at every occurrence, keeping empty pieces (so `"".split(',') = [""]`). -/
def pySplit (sep : Char) : List Char → List (List Char)
  | [] => [[]]
  | c :: rest =>
    if c = sep then [] :: pySplit sep rest
    else (c :: (pySplit sep rest).headI) :: (pySplit sep rest).tail

/-- Model of Python `sep.join(tokens)` for the one-character separator `','`. -/
def pyJoinComma : List (List Char) → List Char
  | [] => []
  | [t] => t
  | t :: t' :: ts => t ++ ',' :: pyJoinComma (t' :: ts)

/-- Model of Python `"sub" in s` (substring membership). -/
def hasSubstring (pat : List Char) (s : List Char) : Bool :=
  match s with
  | [] => pat.isEmpty
  | _ :: rest => pat.isPrefixOf s || hasSubstring pat rest

/-- Worker for `pyReplace`: scan the string left to right; on a pattern
match emit the replacement and skip the rest of the matched occurrence
(the skip counter makes the recursion structural). -/
def pyReplaceGo (pat rep : List Char) : List Char → Nat → List Char
  | [], _ => []
  | _ :: rest, k + 1 => pyReplaceGo pat rep rest k
  | c :: rest, 0 =>
    if pat ≠ [] ∧ pat.isPrefixOf (c :: rest) then
      rep ++ pyReplaceGo pat rep rest (pat.length - 1)
    else
      c :: pyReplaceGo pat rep rest 0

/-- Model of Python `s.replace(pat, rep)` for a non-empty pattern: replace
every non-overlapping occurrence, scanning left to right. -/
def pyReplace (pat rep : List Char) (s : List Char) : List Char :=
  pyReplaceGo pat rep s 0

/--
`PluginStreamMapper._get_language_list` (identical in both plugins):

    language_list = self.settings.get_setting('languages_to_extract')
    language_list = re.sub(r'\s', '-', language_list)
    languages = list(filter(None, language_list.lower().split(',')))
    return [language.strip() for language in languages]
-/
def get_language_list (cfg : List Char) : List (List Char) :=
  let replaced := cfg.map (fun c => if c.isWhitespace then '-' else c)
  let lowered := replaced.map Char.toLower
  let languages := (pySplit ',' lowered).filter (fun t => !t.isEmpty)
  languages.map pyStrip

/-- One probed media stream, as consumed by the plugins: the fields
`codec_type`, `codec_name` and `tags.language` of one entry of the probe's
`streams` list (`language = []` models an absent tag, matching the code's
`.get('tags', {}).get('language', '')`). -/
structure StreamInfo where
  codec_type : List Char
  codec_name : List Char
  language : List Char
  deriving DecidableEq

/-- Target codec set of the ASS variant (`plugin.py` line 75). -/
def assCodecs : List (List Char) := [cs "ass", cs "ssa"]

/-- Target codec set of the SRT variant (`plugin.py` line 74). -/
def srtCodecs : List (List Char) := [cs "srt", cs "mov_txt", cs "subrip"]

/--
`PluginStreamMapper.test_stream_needs_processing` (identical in both plugins
up to the codec list):

    codec_name = stream_info.get('codec_name', '').lower()
    if codec_name not in [...]: return False
    languages = self._get_language_list()
    language_tag = stream_info.get('tags', {}).get('language', '').lower()
    if len(languages) == 0: return True
    if language_tag in languages: return True
    else: return False
-/
def test_stream_needs_processing (codecs : List (List Char)) (cfg : List Char)
    (stream_info : StreamInfo) : Bool :=
  let codec_name := lowerStr stream_info.codec_name
  if codec_name ∉ codecs then false
  else
    let languages := get_language_list cfg
    let language_tag := lowerStr stream_info.language
    if languages.length = 0 then true
    else if language_tag ∈ languages then true
    else false

/-- One entry of `PluginStreamMapper.sub_streams`, as appended by
`custom_stream_mapping`: the subtitle index used in the `0:s:N?` specifier,
the lower-cased language tag, and the `-map` argument pair. -/
structure SubStream where
  stream_id : Nat
  subtitle_tag : List Char
  stream_mapping : List (List Char)
  deriving DecidableEq

/--
`PluginStreamMapper.custom_stream_mapping` (identical in both plugins),
reduced to its effect on `self.sub_streams`: when the language filter is
non-empty and the stream's tag is not in it, no entry is appended (the empty
mapping is returned); otherwise one entry is appended.  Returns the appended
entry, if any.

    language_tag = stream_tags.get('language', '').lower()
    languages = self._get_language_list()
    if len(languages) > 0 and language_tag not in languages:
        return {'stream_mapping': [], 'stream_encoding': []}
    subtitle_tag = language_tag
    stream_specifier = f'0:s:{stream_id}?'
    self.sub_streams.append({'stream_id': stream_id,
        'subtitle_tag': subtitle_tag, 'stream_mapping': ['-map', stream_specifier]})
-/
def custom_stream_mapping (cfg : List Char) (stream_info : StreamInfo)
    (stream_id : Nat) : Option SubStream :=
  let language_tag := lowerStr stream_info.language
  let languages := get_language_list cfg
  if languages.length > 0 ∧ language_tag ∉ languages then
    none
  else
    let specifier := cs "0:s:" ++ (Nat.repr stream_id).data ++ cs "?"
    some ⟨stream_id, language_tag, [cs "-map", specifier]⟩

/-- Modelled from the spec: the host `StreamMapper` base class
(`lib/ffmpeg`, not under `src/`) walks the probed streams in container
order, keeps a zero-based counter of subtitle streams, and for each
subtitle-type stream accepted by `test_stream_needs_processing` invokes
`custom_stream_mapping` with the current subtitle counter (spec section 4.3:
the index "is the Nth subtitle stream encountered so far, zero-based").
The result is the final contents of `self.sub_streams`. -/
def collect_sub_streams (codecs : List (List Char)) (cfg : List Char) :
    List StreamInfo → Nat → List SubStream
  | [], _ => []
  | s :: rest, sid =>
    if s.codec_type = cs "subtitle" then
      (if test_stream_needs_processing codecs cfg s then
        (custom_stream_mapping cfg s sid).toList
      else []) ++ collect_sub_streams codecs cfg rest (sid + 1)
    else
      collect_sub_streams codecs cfg rest sid

/-- Modelled from the spec: the host `StreamMapper.streams_need_processing`
(`lib/ffmpeg`, not under `src/`) reports whether any stream of the mapped
type (`subtitle`) passes `test_stream_needs_processing`. -/
def streams_need_processing (codecs : List (List Char)) (cfg : List Char)
    (streams : List StreamInfo) : Bool :=
  streams.any fun s =>
    s.codec_type = cs "subtitle" && test_stream_needs_processing codecs cfg s

/-- Model of Python `os.path.basename` (posix): the part after the last
`'/'` (the whole path when it contains none). -/
def basenameOf (p : List Char) : List Char :=
  (p.reverse.takeWhile (fun c => c ≠ '/')).reverse

/-- Model of the extension component of Python `os.path.splitext` (posix),
including its leading dot: the suffix of the basename starting at its last
`'.'`, except that dots leading the basename never start an extension
(`splitext(".bashrc") = (".bashrc", "")`). -/
def splitextExt (p : List Char) : List Char :=
  let b := basenameOf p
  let lead := b.takeWhile (fun c => c = '.')
  let rest := b.drop lead.length
  let revExtChars := rest.reverse.takeWhile (fun c => c ≠ '.')
  if revExtChars.length = rest.length then []
  else '.' :: revExtChars.reverse

/-- Model of the root component of Python `os.path.splitext`: the path with
its extension removed. -/
def splitextRoot (p : List Char) : List Char :=
  p.take (p.length - (splitextExt p).length)

/-- Model of Python `os.path.dirname` (posix): everything up to the last
`'/'`, with trailing slashes stripped unless the head consists only of
slashes. -/
def dirnameOf (p : List Char) : List Char :=
  let head := p.take (p.length - (p.reverse.takeWhile (fun c => c ≠ '/')).length)
  if head ≠ [] ∧ head.any (fun c => c ≠ '/') then
    (head.reverse.dropWhile (fun c => c = '/')).reverse
  else head

/-- Model of Python `os.path.join` (posix) for two components. -/
def pyJoin (a b : List Char) : List Char :=
  if b.head? = some '/' then b
  else if a = [] ∨ a.getLast? = some '/' then a ++ b
  else a ++ '/' :: b

/-- `get_unique_ass_filename(base_path, subtitle_tag, stream_index)`:
`f"{base_path}.unmanic.{subtitle_tag}.{stream_index}.ass"`. -/
def get_unique_ass_filename (base_path subtitle_tag : List Char)
    (stream_index : Nat) : List Char :=
  base_path ++ cs ".unmanic." ++ subtitle_tag ++ '.' :: (Nat.repr stream_index).data ++ cs ".ass"

/-- `get_unique_srt_filename(base_path, subtitle_tag, stream_index)`:
`f"{base_path}.unmanic.{subtitle_tag}.{stream_index}.srt"`. -/
def get_unique_srt_filename (base_path subtitle_tag : List Char)
    (stream_index : Nat) : List Char :=
  base_path ++ cs ".unmanic." ++ subtitle_tag ++ '.' :: (Nat.repr stream_index).data ++ cs ".srt"

/-- The file-system and probe facts one invocation of either plugin consumes.
`sidecarRecord` is the truthiness of the `.unmanic` directory-info record for
this file (`false` also covers an absent `.unmanic` file or a read error,
which the code treats identically); `probeOk` is whether `probe.file(path)`
succeeds; `formatTag` is the raw value of the kind's format tag (`ASS_SUB` /
`srt_SUB`, `[]` when absent); `streams` is the probe's stream list;
`assArtifacts` / `srtArtifacts` is the truthiness of
`glob.glob(f"{base_path}.*.ass")` / `...srt` (whether at least one matching
sidecar artifact exists on disk). -/
structure FileState where
  sidecarRecord : Bool
  probeOk : Bool
  formatTag : List Char
  streams : List StreamInfo
  assArtifacts : Bool
  srtArtifacts : Bool
  deriving DecidableEq

/-- The `has_target_subtitles` loop common to both oracles: does any
subtitle-type stream carry a codec in the kind's target set? -/
def has_target_subtitles (codecs : List (List Char))
    (streams : List StreamInfo) : Bool :=
  streams.any fun s =>
    s.codec_type = cs "subtitle" && lowerStr s.codec_name ∈ codecs

/-- The non-MKV guard of `ass_already_extracted` (lines 205-211):

    base_path = os.path.splitext(path)[0]
    file_extension = os.path.splitext(path)[-1][1:]
    file_extension = file_extension.lower()
    if file_extension and file_extension.lower() != 'mkv': return True
-/
def ass_ext_guard (path : List Char) : Bool :=
  let file_extension := lowerStr ((splitextExt path).drop 1)
  file_extension ≠ [] ∧ lowerStr file_extension ≠ cs "mkv"

/-- The `elif` chain of `ass_already_extracted` after the non-MKV guard
(lines 212-226). -/
def ass_decision_tail (extract_regardless : Bool) (st : FileState) : Bool :=
  let subs_tag := lowerStr st.formatTag
  let hts := has_target_subtitles assCodecs st.streams
  if extract_regardless then false
  else if subs_tag = cs "extracted" ∧ st.assArtifacts then true
  else if st.assArtifacts then true
  else if ¬st.assArtifacts ∧ subs_tag ≠ cs "extracted" ∧ hts then false
  else true

/-- `ass_already_extracted(settings, path)` (lines 168-226): the sidecar
record short-circuits to `True`; a failed probe returns `False`; then the
non-MKV guard, then the `extract_regardless` / tag / artifact chain. -/
def ass_already_extracted (extract_regardless : Bool) (st : FileState)
    (path : List Char) : Bool :=
  if st.sidecarRecord then true
  else if !st.probeOk then false
  else if ass_ext_guard path then true
  else ass_decision_tail extract_regardless st

/-- `srt_already_extracted(settings, path)` (lines 167-220): identical to
the ASS oracle except that there is no container-format guard and the tag
and artifacts are SRT-specific. -/
def srt_already_extracted (extract_regardless : Bool) (st : FileState) : Bool :=
  if st.sidecarRecord then true
  else if !st.probeOk then false
  else
    let subs_tag := lowerStr st.formatTag
    let hts := has_target_subtitles srtCodecs st.streams
    if extract_regardless then false
    else if subs_tag = cs "extracted" ∧ st.srtArtifacts then true
    else if st.srtArtifacts then true
    else if ¬st.srtArtifacts ∧ subs_tag ≠ cs "extracted" ∧ hts then false
    else true

/-- The benign-error test in `on_worker_process` (ASS lines 361, SRT 339):

    if "Stream map '0:s:" in e.stderr and "matches no streams" in e.stderr
-/
def benign_map_error (stderr : List Char) : Bool :=
  hasSubstring (cs "Stream map " ++ squote :: cs "0:s:") stderr &&
    hasSubstring (cs "matches no streams") stderr

/-- The temporary metadata-output path of the ASS worker (lines 370-379):

    cache_directory = os.path.dirname(data.get('file_out'))
    file_name_without_ext = os.path.splitext(os.path.basename(abspath))[0]
    temp_output = os.path.join(cache_directory, f"{file_name_without_ext}_temp.mkv")
-/
def ass_temp_output (file_out abspath : List Char) : List Char :=
  pyJoin (dirnameOf file_out) (splitextRoot (basenameOf abspath) ++ cs "_temp.mkv")

/-- The temporary metadata-output path of the SRT worker (line 345):

    temp_output = abspath.replace(".mkv", "_temp.mkv")
-/
def srt_temp_output (abspath : List Char) : List Char :=
  pyReplace (cs ".mkv") (cs "_temp.mkv") abspath

/-- The extraction command built by either worker: `['ffmpeg'] ++
ffmpeg_args` where `ffmpeg_args` is `get_ffmpeg_args()` (generic options,
`-i input`, main options, advanced options) followed, per entry of
`sub_streams`, by its `-map` pair and `-y output`.  The generic/main/advanced
option lists come from the `StreamMapper` base class (`lib/ffmpeg`, not under
`src/`); modelled from the spec section 6 as the frame around the per-target
arguments, with the base-class option lists abstracted by `base_opts`. -/
def exec_command_args (base_opts : List (List Char)) (file_in : List Char)
    (outputs : List (SubStream × List Char)) : List (List Char) :=
  cs "ffmpeg" :: (base_opts ++ [cs "-i", file_in] ++
    outputs.flatMap fun so => so.1.stream_mapping ++ [cs "-y", so.2])

/-- Everything one `on_worker_process` invocation consumes: the file state,
settings, paths, and the observable behaviour of the two external commands
(the extraction command's exit status and diagnostics, the metadata-write
command's exit status, and whether the final replace itself succeeds). -/
structure WorkerInputs where
  st : FileState
  extract_regardless : Bool
  cfg : List Char
  file_in : List Char
  original_file_path : List Char
  file_out : List Char
  base_opts : List (List Char)
  extractExitOk : Bool
  extractStderr : List Char
  metaExitOk : Bool
  replaceOk : Bool

/-- The observable outcome of one `on_worker_process` invocation:
`data['exec_command']` (`none` models Python `None`, `some []` the initial
empty list), whether the extraction subprocess ran, whether the
metadata-write command was attempted, and whether the original file was
replaced by the tagged temporary. -/
structure WorkerResult where
  execCommand : Option (List (List Char))
  extractionRan : Bool
  metadataAttempted : Bool
  replacePerformed : Bool
  deriving DecidableEq

/-- `on_worker_process(data)` of the ASS plugin (lines 258-410), as the
function from consumed inputs to observable outcome.  Control flow from the
source: probe failure returns with the initial empty command; an oracle hit
sets `exec_command = None`; otherwise, when streams need processing, the
command is built from `sub_streams`, executed, a non-zero exit returns
immediately unless the diagnostics match the benign stream-map pattern, and
the metadata step replaces the original only after its own command
succeeded. -/
def ass_on_worker_process (w : WorkerInputs) : WorkerResult :=
  if !w.st.probeOk then ⟨some [], false, false, false⟩
  else if ass_already_extracted w.extract_regardless w.st w.file_in then
    ⟨none, false, false, false⟩
  else if streams_need_processing assCodecs w.cfg w.st.streams then
    let base_path := splitextRoot w.original_file_path
    let subs := collect_sub_streams assCodecs w.cfg w.st.streams 0
    let outputs := subs.map fun e =>
      (e, get_unique_ass_filename base_path e.subtitle_tag e.stream_id)
    let cmd := exec_command_args w.base_opts w.file_in outputs
    if w.extractExitOk || benign_map_error w.extractStderr then
      ⟨some cmd, true, true, w.metaExitOk && w.replaceOk⟩
    else ⟨some cmd, true, false, false⟩
  else ⟨some [], false, false, false⟩

/-- `on_worker_process(data)` of the SRT plugin (lines 252-372); identical
control flow to the ASS worker with SRT codecs, oracle and filenames. -/
def srt_on_worker_process (w : WorkerInputs) : WorkerResult :=
  if !w.st.probeOk then ⟨some [], false, false, false⟩
  else if srt_already_extracted w.extract_regardless w.st then
    ⟨none, false, false, false⟩
  else if streams_need_processing srtCodecs w.cfg w.st.streams then
    let base_path := splitextRoot w.original_file_path
    let subs := collect_sub_streams srtCodecs w.cfg w.st.streams 0
    let outputs := subs.map fun e =>
      (e, get_unique_srt_filename base_path e.subtitle_tag e.stream_id)
    let cmd := exec_command_args w.base_opts w.file_in outputs
    if w.extractExitOk || benign_map_error w.extractStderr then
      ⟨some cmd, true, true, w.metaExitOk && w.replaceOk⟩
    else ⟨some cmd, true, false, false⟩
  else ⟨some [], false, false, false⟩

/-- Decoder of decimal digit strings, used to prove `Nat.repr` injective. -/
def decodeDigits (l : List Char) : Nat :=
  l.foldl (fun acc c => acc * 10 + (c.toNat - 48)) 0

/-! Character-level helper lemmas -/

theorem char_eq_iff_toNat (a b : Char) : a = b ↔ a.toNat = b.toNat :=
  ⟨congrArg Char.toNat, fun h => by rw [← Char.ofNat_toNat a, ← Char.ofNat_toNat b, h]⟩

theorem char_toNat_ofNat_valid (m : Nat) (h : m < 55296) : (Char.ofNat m).toNat = m := by
  rw [Char.ofNat, dif_pos (Or.inl h)]
  rfl

theorem toLower_eq (c : Char) :
    Char.toLower c = if c.toNat ≥ 65 ∧ c.toNat ≤ 90 then Char.ofNat (c.toNat + 32) else c :=
  rfl

theorem toLower_toLower (c : Char) : Char.toLower (Char.toLower c) = Char.toLower c := by
  rw [toLower_eq c]
  split_ifs with h
  · rw [toLower_eq]
    have ht : (Char.ofNat (c.toNat + 32)).toNat = c.toNat + 32 :=
      char_toNat_ofNat_valid _ (by omega)
    rw [if_neg (by rw [ht]; omega)]
  · rw [toLower_eq, if_neg h]

theorem isWhitespace_iff_toNat (c : Char) :
    c.isWhitespace = true ↔ (c.toNat = 32 ∨ c.toNat = 9 ∨ c.toNat = 13 ∨ c.toNat = 10) := by
  simp only [Char.isWhitespace, Bool.or_eq_true, decide_eq_true_eq]
  rw [char_eq_iff_toNat c ' ', char_eq_iff_toNat c '\t', char_eq_iff_toNat c '\r',
    char_eq_iff_toNat c '\n']
  show ((c.toNat = 32 ∨ c.toNat = 9) ∨ c.toNat = 13) ∨ c.toNat = 10 ↔ _
  tauto

theorem toLower_isWhitespace (c : Char) :
    (Char.toLower c).isWhitespace = c.isWhitespace := by
  rw [toLower_eq c]
  split_ifs with h
  · have ht : (Char.ofNat (c.toNat + 32)).toNat = c.toNat + 32 :=
      char_toNat_ofNat_valid _ (by omega)
    cases hw : (Char.ofNat (c.toNat + 32)).isWhitespace with
    | false =>
      cases hw2 : c.isWhitespace with
      | false => rfl
      | true => rw [isWhitespace_iff_toNat] at hw2; omega
    | true => rw [isWhitespace_iff_toNat, ht] at hw; omega
  · rfl

/-! Decimal representation lemmas: `Nat.repr` is dot-free and injective -/

theorem digitChar_ne_dot (m : Nat) (h : m < 16) : Nat.digitChar m ≠ '.' := by
  interval_cases m <;> decide

theorem toDigitsCore_ne_dot (fuel : Nat) : ∀ (n : Nat) (acc : List Char),
    (∀ c ∈ acc, c ≠ '.') → ∀ c ∈ Nat.toDigitsCore 10 fuel n acc, c ≠ '.' := by
  induction fuel with
  | zero => intro n acc hacc c hc; exact hacc c hc
  | succ fuel ih =>
    intro n acc hacc c hc
    rw [Nat.toDigitsCore] at hc
    split at hc
    · rcases List.mem_cons.mp hc with h | h
      · exact h ▸ digitChar_ne_dot _ (by omega)
      · exact hacc c h
    · refine ih _ _ ?_ c hc
      intro x hx
      rcases List.mem_cons.mp hx with h | h
      · exact h ▸ digitChar_ne_dot _ (by omega)
      · exact hacc x h

theorem repr_data_ne_dot (n : Nat) : ∀ c ∈ (Nat.repr n).data, c ≠ '.' := by
  have h : (Nat.repr n).data = Nat.toDigits 10 n := rfl
  rw [h, Nat.toDigits]
  exact toDigitsCore_ne_dot _ _ _ (by simp)

theorem toDigitsCore_append (fuel : Nat) : ∀ (n : Nat) (a b : List Char),
    Nat.toDigitsCore 10 fuel n (a ++ b) = Nat.toDigitsCore 10 fuel n a ++ b := by
  induction fuel with
  | zero => intro n a b; rfl
  | succ fuel ih =>
    intro n a b
    rw [Nat.toDigitsCore, Nat.toDigitsCore]
    split
    · rfl
    · exact ih (n / 10) (Nat.digitChar (n % 10) :: a) b

theorem toDigitsCore_fuel (n : Nat) : ∀ (f₁ f₂ : Nat) (acc : List Char), n < f₁ → n < f₂ →
    Nat.toDigitsCore 10 f₁ n acc = Nat.toDigitsCore 10 f₂ n acc := by
  induction n using Nat.strong_induction_on with
  | _ n ih =>
    intro f₁ f₂ acc h₁ h₂
    match f₁, f₂ with
    | f₁+1, f₂+1 =>
      rw [Nat.toDigitsCore, Nat.toDigitsCore]
      split
      · rfl
      · rename_i h
        exact ih (n / 10) (by omega) f₁ f₂ _ (by omega) (by omega)

theorem decode_append (l : List Char) (d : Char) :
    decodeDigits (l ++ [d]) = decodeDigits l * 10 + (d.toNat - 48) := by
  simp [decodeDigits, List.foldl_append]

theorem decode_toDigits (n : Nat) : decodeDigits (Nat.toDigits 10 n) = n := by
  induction n using Nat.strong_induction_on with
  | _ n ih =>
    rw [Nat.toDigits, Nat.toDigitsCore]
    split
    · rename_i h
      have h10 : n % 10 = n := Nat.mod_eq_of_lt (by omega)
      rw [h10]
      have hn : n < 10 := by omega
      interval_cases n <;> decide
    · rename_i h
      have h1 : Nat.toDigitsCore 10 n (n / 10) [Nat.digitChar (n % 10)]
          = Nat.toDigits 10 (n / 10) ++ [Nat.digitChar (n % 10)] := by
        rw [Nat.toDigits,
          show [Nat.digitChar (n % 10)] = [] ++ [Nat.digitChar (n % 10)] from rfl,
          toDigitsCore_append]
        rw [toDigitsCore_fuel (n / 10) n (n / 10 + 1) [] (by omega) (by omega)]
        simp
      rw [h1, decode_append, ih (n / 10) (by omega)]
      have hmod : n % 10 < 10 := by omega
      have hm : (Nat.digitChar (n % 10)).toNat - 48 = n % 10 := by
        revert hmod
        generalize n % 10 = m
        intro hmod
        interval_cases m <;> decide
      rw [hm]
      omega

theorem natReprInj {m n : Nat} (h : (Nat.repr m).data = (Nat.repr n).data) : m = n := by
  have hd : Nat.toDigits 10 m = Nat.toDigits 10 n := h
  have h2 := congrArg decodeDigits hd
  rwa [decode_toDigits, decode_toDigits] at h2

/-! List helper lemmas -/

theorem map_id_of_fixed {α : Type} (f : α → α) :
    ∀ (l : List α), (∀ x ∈ l, f x = x) → l.map f = l
  | [], _ => rfl
  | a :: l, h => by
    rw [List.map_cons, h a (List.mem_cons_self a l),
      map_id_of_fixed f l (fun x hx => h x (List.mem_cons_of_mem a hx))]

theorem dropWhile_eq_self_of {α : Type} (p : α → Bool) (l : List α)
    (h : ∀ x ∈ l, p x = false) : l.dropWhile p = l := by
  cases l with
  | nil => rfl
  | cons a l => rw [List.dropWhile_cons, h a (List.mem_cons_self a l)]; simp

theorem mem_pyStrip {x : Char} {t : List Char} (h : x ∈ pyStrip t) : x ∈ t := by
  unfold pyStrip at h
  rw [List.mem_reverse] at h
  have h1 : x ∈ (t.dropWhile Char.isWhitespace).reverse :=
    (List.dropWhile_sublist Char.isWhitespace).subset h
  rw [List.mem_reverse] at h1
  exact (List.dropWhile_sublist Char.isWhitespace).subset h1

theorem pyStrip_eq_self {t : List Char} (h : ∀ x ∈ t, x.isWhitespace = false) :
    pyStrip t = t := by
  unfold pyStrip
  rw [dropWhile_eq_self_of _ _ h,
    dropWhile_eq_self_of _ _ (fun x hx => h x (List.mem_reverse.mp hx)),
    List.reverse_reverse]

theorem pySplit_ne_nil (sep : Char) (l : List Char) : pySplit sep l ≠ [] := by
  induction l with
  | nil => simp [pySplit]
  | cons c rest ih =>
    rw [pySplit]
    split
    · simp
    · simp

theorem mem_of_mem_pySplit (sep : Char) : ∀ (l t : List Char),
    t ∈ pySplit sep l → ∀ x ∈ t, x ∈ l := by
  intro l
  induction l with
  | nil =>
    intro t ht x hx
    simp [pySplit] at ht
    subst ht
    simp at hx
  | cons c rest ih =>
    intro t ht x hx
    rw [pySplit] at ht
    by_cases hc : c = sep
    · rw [if_pos hc] at ht
      rcases List.mem_cons.mp ht with h | h
      · subst h; simp at hx
      · exact List.mem_cons_of_mem c (ih t h x hx)
    · rw [if_neg hc] at ht
      cases hps : pySplit sep rest with
      | nil => exact absurd hps (pySplit_ne_nil sep rest)
      | cons t₀ ts =>
        rw [hps] at ht
        simp only [List.headI, List.tail_cons] at ht
        rcases List.mem_cons.mp ht with h | h
        · subst h
          rcases List.mem_cons.mp hx with h | h
          · simp [h]
          · exact List.mem_cons_of_mem c (ih t₀ (hps ▸ List.mem_cons_self t₀ ts) x h)
        · exact List.mem_cons_of_mem c (ih t (hps ▸ List.mem_cons_of_mem t₀ h) x hx)

theorem sep_not_mem_pySplit (sep : Char) : ∀ (l t : List Char),
    t ∈ pySplit sep l → sep ∉ t := by
  intro l
  induction l with
  | nil =>
    intro t ht
    simp [pySplit] at ht
    subst ht
    simp
  | cons c rest ih =>
    intro t ht
    rw [pySplit] at ht
    by_cases hc : c = sep
    · rw [if_pos hc] at ht
      rcases List.mem_cons.mp ht with h | h
      · subst h; simp
      · exact ih t h
    · rw [if_neg hc] at ht
      cases hps : pySplit sep rest with
      | nil => exact absurd hps (pySplit_ne_nil sep rest)
      | cons t₀ ts =>
        rw [hps] at ht
        simp only [List.headI, List.tail_cons] at ht
        rcases List.mem_cons.mp ht with h | h
        · subst h
          intro hmem
          rcases List.mem_cons.mp hmem with h | h
          · exact hc h.symm
          · exact ih t₀ (hps ▸ List.mem_cons_self t₀ ts) h
        · exact ih t (hps ▸ List.mem_cons_of_mem t₀ h)

theorem pySplit_no_sep (sep : Char) : ∀ (t : List Char), sep ∉ t → pySplit sep t = [t] := by
  intro t
  induction t with
  | nil => intro _; rfl
  | cons c t ih =>
    intro h
    have hc : ¬(c = sep) := fun hc => h (by simp [hc])
    rw [pySplit, if_neg hc, ih (fun hm => h (List.mem_cons_of_mem c hm))]
    rfl

theorem pySplit_append_cons (sep : Char) : ∀ (t r : List Char), sep ∉ t →
    pySplit sep (t ++ sep :: r) = t :: pySplit sep r := by
  intro t
  induction t with
  | nil => intro r _; rw [List.nil_append, pySplit, if_pos rfl]
  | cons c t ih =>
    intro r h
    have hc : ¬(c = sep) := fun hc => h (by simp [hc])
    rw [List.cons_append, pySplit, if_neg hc, ih r (fun hm => h (List.mem_cons_of_mem c hm))]
    rfl

theorem pySplit_pyJoinComma : ∀ (ts : List (List Char)), ts ≠ [] →
    (∀ t ∈ ts, ',' ∉ t) → pySplit ',' (pyJoinComma ts) = ts := by
  intro ts
  induction ts with
  | nil => intro hne _; exact absurd rfl hne
  | cons t ts ih =>
    intro _ h
    cases ts with
    | nil => rw [pyJoinComma, pySplit_no_sep ',' t (h t (by simp))]
    | cons t' ts' =>
      rw [pyJoinComma, pySplit_append_cons ',' t _ (h t (by simp)),
        ih (by simp) (fun u hu => h u (List.mem_cons_of_mem t hu))]

theorem pyJoinComma_chars (P : Char → Prop) (hsep : P ',') :
    ∀ (ts : List (List Char)), (∀ t ∈ ts, ∀ x ∈ t, P x) →
      ∀ x ∈ pyJoinComma ts, P x := by
  intro ts
  induction ts with
  | nil => intro _ x hx; simp [pyJoinComma] at hx
  | cons t ts ih =>
    cases ts with
    | nil => intro h x hx; exact h t (by simp) x hx
    | cons t' ts' =>
      intro h x hx
      rw [pyJoinComma] at hx
      rcases List.mem_append.mp hx with h1 | h1
      · exact h t (by simp) x h1
      · rcases List.mem_cons.mp h1 with h2 | h2
        · exact h2 ▸ hsep
        · exact ih (fun u hu => h u (List.mem_cons_of_mem t hu)) x h2

theorem append_cons_cancel {α : Type} (a : α) :
    ∀ (l₁ l₂ t₁ t₂ : List α), a ∉ l₁ → a ∉ l₂ →
      l₁ ++ a :: t₁ = l₂ ++ a :: t₂ → l₁ = l₂ ∧ t₁ = t₂ := by
  intro l₁
  induction l₁ with
  | nil =>
    intro l₂ t₁ t₂ _ h₂ h
    cases l₂ with
    | nil => simpa using h
    | cons b l₂ =>
      rw [List.nil_append, List.cons_append] at h
      injection h with h1 _
      subst h1
      exact absurd (List.mem_cons_self a l₂) h₂
  | cons c l₁ ih =>
    intro l₂ t₁ t₂ h₁ h₂ h
    cases l₂ with
    | nil =>
      rw [List.cons_append, List.nil_append] at h
      injection h with h1 _
      subst h1
      exact absurd (List.mem_cons_self c l₁) h₁
    | cons b l₂ =>
      rw [List.cons_append, List.cons_append] at h
      injection h with h1 h2
      subst h1
      obtain ⟨e1, e2⟩ := ih l₂ t₁ t₂ (fun hm => h₁ (List.mem_cons_of_mem c hm))
        (fun hm => h₂ (List.mem_cons_of_mem c hm)) h2
      exact ⟨by rw [e1], e2⟩

theorem pyReplace_of_not_sub (pat rep : List Char) :
    ∀ (s : List Char), hasSubstring pat s = false → pyReplace pat rep s = s := by
  intro s
  induction s with
  | nil => intro _; rfl
  | cons c rest ih =>
    intro h
    rw [hasSubstring, Bool.or_eq_false_iff] at h
    have hcond : ¬(pat ≠ [] ∧ pat.isPrefixOf (c :: rest) = true) := by
      intro hand
      rw [hand.2] at h
      exact absurd h.1 (by simp)
    show pyReplaceGo pat rep (c :: rest) 0 = c :: rest
    rw [pyReplaceGo, if_neg hcond]
    exact congrArg (c :: ·) (ih h.2)

/-! Stream-selection lemmas -/

theorem test_codec_mem {codecs : List (List Char)} {cfg : List Char} {s : StreamInfo}
    (h : test_stream_needs_processing codecs cfg s = true) :
    lowerStr s.codec_name ∈ codecs := by
  by_cases hc : lowerStr s.codec_name ∈ codecs
  · exact hc
  · simp only [test_stream_needs_processing, if_pos hc] at h
    exact absurd h (by simp [hc])

theorem custom_stream_mapping_eq {cfg : List Char} {s : StreamInfo} {sid : Nat} {e : SubStream}
    (h : custom_stream_mapping cfg s sid = some e) :
    e.stream_id = sid ∧ e.subtitle_tag = lowerStr s.language ∧
      (get_language_list cfg ≠ [] → lowerStr s.language ∈ get_language_list cfg) := by
  simp only [custom_stream_mapping] at h
  split at h
  · exact absurd h (by simp)
  · rename_i hcond
    injection h with h'
    subst h'
    refine ⟨rfl, rfl, fun hne => ?_⟩
    by_contra hmem
    exact hcond ⟨List.length_pos.mpr hne, hmem⟩

theorem mem_collect_sub_streams {codecs : List (List Char)} {cfg : List Char} :
    ∀ {streams : List StreamInfo} {sid : Nat} {e : SubStream},
      e ∈ collect_sub_streams codecs cfg streams sid →
      ∃ s ∈ streams, s.codec_type = cs "subtitle" ∧
        lowerStr s.codec_name ∈ codecs ∧
        (get_language_list cfg ≠ [] → lowerStr s.language ∈ get_language_list cfg) ∧
        e.subtitle_tag = lowerStr s.language := by
  intro streams
  induction streams with
  | nil => intro sid e he; simp [collect_sub_streams] at he
  | cons s rest ih =>
    intro sid e he
    rw [collect_sub_streams] at he
    by_cases htype : s.codec_type = cs "subtitle"
    · rw [if_pos htype] at he
      rcases List.mem_append.mp he with h | h
      · by_cases htest : test_stream_needs_processing codecs cfg s = true
        · rw [if_pos htest] at h
          cases hc : custom_stream_mapping cfg s sid with
          | none => rw [hc] at h; simp at h
          | some e' =>
            rw [hc] at h
            simp only [Option.toList, List.mem_singleton] at h
            subst h
            obtain ⟨_, htag, hlang⟩ := custom_stream_mapping_eq hc
            exact ⟨s, List.mem_cons_self s rest, htype, test_codec_mem htest, hlang, htag⟩
        · rw [if_neg htest] at h; simp at h
      · obtain ⟨s', hs', hrest⟩ := ih h
        exact ⟨s', List.mem_cons_of_mem s hs', hrest⟩
    · rw [if_neg htype] at he
      obtain ⟨s', hs', hrest⟩ := ih he
      exact ⟨s', List.mem_cons_of_mem s hs', hrest⟩

theorem collect_sub_streams_id_ge {codecs : List (List Char)} {cfg : List Char} :
    ∀ (streams : List StreamInfo) (sid : Nat) (e : SubStream),
      e ∈ collect_sub_streams codecs cfg streams sid → sid ≤ e.stream_id := by
  intro streams
  induction streams with
  | nil => intro sid e he; simp [collect_sub_streams] at he
  | cons s rest ih =>
    intro sid e he
    rw [collect_sub_streams] at he
    by_cases htype : s.codec_type = cs "subtitle"
    · rw [if_pos htype] at he
      rcases List.mem_append.mp he with h | h
      · by_cases htest : test_stream_needs_processing codecs cfg s = true
        · rw [if_pos htest] at h
          cases hc : custom_stream_mapping cfg s sid with
          | none => rw [hc] at h; simp at h
          | some e' =>
            rw [hc] at h
            simp only [Option.toList, List.mem_singleton] at h
            subst h
            exact le_of_eq (custom_stream_mapping_eq hc).1.symm
        · rw [if_neg htest] at h; simp at h
      · have := ih (sid + 1) e h
        omega
    · rw [if_neg htype] at he
      exact ih sid e he

theorem collect_sub_streams_pairwise {codecs : List (List Char)} {cfg : List Char} :
    ∀ (streams : List StreamInfo) (sid : Nat),
      (collect_sub_streams codecs cfg streams sid).Pairwise
        (fun a b => a.stream_id < b.stream_id) := by
  intro streams
  induction streams with
  | nil => intro sid; simp [collect_sub_streams]
  | cons s rest ih =>
    intro sid
    rw [collect_sub_streams]
    by_cases htype : s.codec_type = cs "subtitle"
    · rw [if_pos htype]
      by_cases htest : test_stream_needs_processing codecs cfg s = true
      · rw [if_pos htest]
        cases hc : custom_stream_mapping cfg s sid with
        | none => simpa using ih (sid + 1)
        | some e' =>
          simp only [Option.toList, List.singleton_append]
          rw [List.pairwise_cons]
          refine ⟨fun b hb => ?_, ih (sid + 1)⟩
          have h1 := collect_sub_streams_id_ge rest (sid + 1) b hb
          have h2 : e'.stream_id = sid := (custom_stream_mapping_eq hc).1
          omega
      · rw [if_neg htest]
        simpa using ih (sid + 1)
    · rw [if_neg htype]
      exact ih sid

/-! Output-filename lemmas -/

theorem filename_shape_inj (tail base t₁ t₂ : List Char) (i₁ i₂ : Nat) (hne : i₁ ≠ i₂) :
    base ++ cs ".unmanic." ++ t₁ ++ '.' :: (Nat.repr i₁).data ++ tail ≠
      base ++ cs ".unmanic." ++ t₂ ++ '.' :: (Nat.repr i₂).data ++ tail := by
  intro h
  simp only [List.append_assoc, List.cons_append] at h
  have h1 := List.append_cancel_left h
  have h2 := List.append_cancel_left h1
  have h3 := congrArg List.reverse h2
  simp only [List.reverse_append, List.reverse_cons, List.append_assoc,
    List.singleton_append] at h3
  have h4 := List.append_cancel_left h3
  have hd₁ : '.' ∉ (Nat.repr i₁).data.reverse :=
    fun hm => (repr_data_ne_dot i₁ '.' (List.mem_reverse.mp hm)) rfl
  have hd₂ : '.' ∉ (Nat.repr i₂).data.reverse :=
    fun hm => (repr_data_ne_dot i₂ '.' (List.mem_reverse.mp hm)) rfl
  obtain ⟨h5, -⟩ := append_cons_cancel '.' _ _ _ _ hd₁ hd₂ h4
  have h6 : (Nat.repr i₁).data = (Nat.repr i₂).data := by
    have h7 := congrArg List.reverse h5
    simpa using h7
  exact hne (natReprInj h6)

theorem get_unique_ass_filename_inj (base t₁ t₂ : List Char) (i₁ i₂ : Nat) (hne : i₁ ≠ i₂) :
    get_unique_ass_filename base t₁ i₁ ≠ get_unique_ass_filename base t₂ i₂ :=
  filename_shape_inj (cs ".ass") base t₁ t₂ i₁ i₂ hne

theorem get_unique_srt_filename_inj (base t₁ t₂ : List Char) (i₁ i₂ : Nat) (hne : i₁ ≠ i₂) :
    get_unique_srt_filename base t₁ i₁ ≠ get_unique_srt_filename base t₂ i₂ :=
  filename_shape_inj (cs ".srt") base t₁ t₂ i₁ i₂ hne

/-! Language-filter parse lemmas -/

theorem lowered_chars (cfg : List Char) :
    ∀ x ∈ (cfg.map (fun c => if c.isWhitespace then '-' else c)).map Char.toLower,
      x.isWhitespace = false ∧ Char.toLower x = x := by
  intro x hx
  rw [List.mem_map] at hx
  obtain ⟨y, hy, rfl⟩ := hx
  refine ⟨?_, toLower_toLower y⟩
  rw [toLower_isWhitespace]
  rw [List.mem_map] at hy
  obtain ⟨c, _, rfl⟩ := hy
  split_ifs with hws
  · decide
  · simpa using hws

theorem gll_char_props (cfg : List Char) :
    ∀ t ∈ get_language_list cfg, ∀ x ∈ t,
      x.isWhitespace = false ∧ Char.toLower x = x ∧ x ≠ ',' := by
  intro t ht x hx
  simp only [get_language_list, List.mem_map] at ht
  obtain ⟨t₀, ht₀, rfl⟩ := ht
  have hx₀ : x ∈ t₀ := mem_pyStrip hx
  have ht₀' := List.mem_of_mem_filter ht₀
  have hxl := mem_of_mem_pySplit ',' _ t₀ ht₀' x hx₀
  obtain ⟨hws, hfix⟩ := lowered_chars cfg x hxl
  exact ⟨hws, hfix, fun hc => sep_not_mem_pySplit ',' _ t₀ ht₀' (hc ▸ hx₀)⟩

theorem gll_eq_filter (cfg : List Char) :
    get_language_list cfg =
      (pySplit ',' ((cfg.map (fun c => if c.isWhitespace then '-' else c)).map
        Char.toLower)).filter (fun t => !t.isEmpty) := by
  simp only [get_language_list]
  apply map_id_of_fixed
  intro t₀ ht₀
  apply pyStrip_eq_self
  intro x hx
  exact (lowered_chars cfg x
    (mem_of_mem_pySplit ',' _ t₀ (List.mem_of_mem_filter ht₀) x hx)).1

theorem gll_ne_nil (cfg : List Char) : ∀ t ∈ get_language_list cfg, t ≠ [] := by
  rw [gll_eq_filter]
  intro t ht
  have h := List.of_mem_filter ht
  simpa using h

theorem lowerStr_idem (s : List Char) : lowerStr (lowerStr s) = lowerStr s := by
  unfold lowerStr
  rw [List.map_map]
  exact List.map_congr_left (fun x _ => toLower_toLower x)

/-! Claim theorems -/

/-- C8: For every configuration string `s`, the language-filter parse
(replace each whitespace character with a hyphen, lowercase, split on
commas, drop empty tokens, trim each token) is idempotent: re-parsing the
comma-join of `parse s` yields exactly `parse s`. -/
theorem get_language_list_idempotent (cfg : List Char) :
    get_language_list (pyJoinComma (get_language_list cfg)) = get_language_list cfg := by
  by_cases hL : get_language_list cfg = []
  · rw [hL]
    rfl
  · have hchars := gll_char_props cfg
    have h1 : (pyJoinComma (get_language_list cfg)).map
        (fun c => if c.isWhitespace then '-' else c) = pyJoinComma (get_language_list cfg) := by
      apply map_id_of_fixed
      exact pyJoinComma_chars (fun x => (if x.isWhitespace then '-' else x) = x)
        (by decide) _ (fun t ht x hx => by simp [(hchars t ht x hx).1])
    have h2 : (pyJoinComma (get_language_list cfg)).map Char.toLower
        = pyJoinComma (get_language_list cfg) := by
      apply map_id_of_fixed
      exact pyJoinComma_chars (fun x => Char.toLower x = x) (by decide) _
        (fun t ht x hx => (hchars t ht x hx).2.1)
    have h3 : pySplit ',' (pyJoinComma (get_language_list cfg)) = get_language_list cfg :=
      pySplit_pyJoinComma _ hL (fun t ht hmem => (hchars t ht ',' hmem).2.2 rfl)
    have h4 : (get_language_list cfg).filter (fun t => !t.isEmpty) = get_language_list cfg := by
      rw [List.filter_eq_self]
      intro t ht
      simpa using gll_ne_nil cfg t ht
    have h5 : (get_language_list cfg).map pyStrip = get_language_list cfg := by
      apply map_id_of_fixed
      intro t ht
      exact pyStrip_eq_self (fun x hx => (hchars t ht x hx).1)
    show ((pySplit ',' (((pyJoinComma (get_language_list cfg)).map
        (fun c => if c.isWhitespace then '-' else c)).map Char.toLower)).filter
          (fun t => !t.isEmpty)).map pyStrip = get_language_list cfg
    rw [h1, h2, h3, h4, h5]

/-- C1: for every ordered sequence of stream descriptors and every language
filter, a stream contributes an entry in `sub_streams` (with a stream
mapping) only if its stream type is `subtitle`, its codec name is in the
kind's target codec set (`ass`/`ssa` for the ASS variant, `srt`/`mov_txt`/
`subrip` for the SRT variant), and, when the parsed filter is non-empty,
its language tag is in the filter. -/
theorem sub_streams_only_qualifying (codecs : List (List Char)) (cfg : List Char)
    (streams : List StreamInfo) (sid : Nat) (e : SubStream)
    (hkind : codecs = assCodecs ∨ codecs = srtCodecs)
    (he : e ∈ collect_sub_streams codecs cfg streams sid) :
    ∃ s ∈ streams, s.codec_type = cs "subtitle" ∧
      lowerStr s.codec_name ∈ codecs ∧
      (get_language_list cfg ≠ [] → lowerStr s.language ∈ get_language_list cfg) ∧
      e.subtitle_tag = lowerStr s.language :=
  mem_collect_sub_streams he

theorem sub_streams_only_qualifying_witness :
    ∃ s ∈ [(⟨cs "subtitle", cs "ASS", cs "Eng"⟩ : StreamInfo)],
      s.codec_type = cs "subtitle" ∧
      lowerStr s.codec_name ∈ assCodecs ∧
      (get_language_list (cs "eng") ≠ [] →
        lowerStr s.language ∈ get_language_list (cs "eng")) ∧
      (⟨0, cs "eng", [cs "-map", cs "0:s:0?"]⟩ : SubStream).subtitle_tag
        = lowerStr s.language :=
  sub_streams_only_qualifying assCodecs (cs "eng")
    [⟨cs "subtitle", cs "ASS", cs "Eng"⟩] 0
    ⟨0, cs "eng", [cs "-map", cs "0:s:0?"]⟩ (Or.inl rfl) (by decide)

/-- C7: when the parsed language filter is empty, every subtitle-type stream
whose codec name is in the kind's target codec set passes
`test_stream_needs_processing` and is selected (contributes the entry with
the current subtitle index), regardless of its language tag. -/
theorem empty_filter_selects_all_matching (codecs : List (List Char)) (cfg : List Char)
    (s : StreamInfo) (rest : List StreamInfo) (sid : Nat)
    (hkind : codecs = assCodecs ∨ codecs = srtCodecs)
    (hempty : get_language_list cfg = [])
    (htype : s.codec_type = cs "subtitle")
    (hcodec : lowerStr s.codec_name ∈ codecs) :
    test_stream_needs_processing codecs cfg s = true ∧
    collect_sub_streams codecs cfg (s :: rest) sid =
      ⟨sid, lowerStr s.language,
        [cs "-map", cs "0:s:" ++ (Nat.repr sid).data ++ cs "?"]⟩ ::
        collect_sub_streams codecs cfg rest (sid + 1) := by
  have htest : test_stream_needs_processing codecs cfg s = true := by
    simp only [test_stream_needs_processing]
    rw [if_neg (by simpa using hcodec), hempty]
    simp
  refine ⟨htest, ?_⟩
  rw [collect_sub_streams, if_pos htype, if_pos htest]
  have hc : custom_stream_mapping cfg s sid = some
      ⟨sid, lowerStr s.language,
        [cs "-map", cs "0:s:" ++ (Nat.repr sid).data ++ cs "?"]⟩ := by
    simp only [custom_stream_mapping]
    rw [if_neg]
    intro hand
    rw [hempty] at hand
    simp at hand
  rw [hc]
  rfl

theorem empty_filter_selects_all_matching_witness :
    test_stream_needs_processing assCodecs (cs "") ⟨cs "subtitle", cs "ssa", cs ""⟩ = true ∧
    collect_sub_streams assCodecs (cs "") [⟨cs "subtitle", cs "ssa", cs ""⟩] 0 =
      ⟨0, lowerStr (cs ""),
        [cs "-map", cs "0:s:" ++ (Nat.repr 0).data ++ cs "?"]⟩ ::
        collect_sub_streams assCodecs (cs "") [] 1 :=
  empty_filter_selects_all_matching assCodecs (cs "") ⟨cs "subtitle", cs "ssa", cs ""⟩ [] 0
    (Or.inl rfl) (by decide) (by decide) (by decide)

/-- C6: for every run, the output filenames derived from the selected
sub-streams (`{base}.unmanic.{tag}.{index}.{ext}`) are pairwise distinct,
for any combination of repeated or empty language tags, because the
subtitle indices assigned within one run are pairwise distinct. -/
theorem output_filenames_pairwise_distinct (cfg base : List Char)
    (streams : List StreamInfo) :
    ((collect_sub_streams assCodecs cfg streams 0).map
      (fun e => get_unique_ass_filename base e.subtitle_tag e.stream_id)).Pairwise
        (fun x y => x ≠ y) ∧
    ((collect_sub_streams srtCodecs cfg streams 0).map
      (fun e => get_unique_srt_filename base e.subtitle_tag e.stream_id)).Pairwise
        (fun x y => x ≠ y) := by
  constructor
  · exact List.Pairwise.map _
      (fun a b hab => get_unique_ass_filename_inj base a.subtitle_tag b.subtitle_tag
        a.stream_id b.stream_id (Nat.ne_of_lt hab))
      (collect_sub_streams_pairwise streams 0)
  · exact List.Pairwise.map _
      (fun a b hab => get_unique_srt_filename_inj base a.subtitle_tag b.subtitle_tag
        a.stream_id b.stream_id (Nat.ne_of_lt hab))
      (collect_sub_streams_pairwise streams 0)

/-- C2 counterexample: with a truthy `.unmanic` sidecar record both oracles
report already-extracted even though `extract_regardless` is true, refuting
"for every file state ... it always re-extracts". -/
theorem oracle_unconditional_counterexample :
    ass_already_extracted true ⟨true, true, [], [], false, false⟩ (cs "/a/movie.mkv") = true ∧
    srt_already_extracted true ⟨true, true, [], [], false, false⟩ = true :=
  ⟨rfl, rfl⟩

/-- C2 amended: when `extract_regardless` is true the oracles report not
already extracted, provided the `.unmanic` sidecar record is not truthy and
(for the ASS variant) the non-MKV extension guard does not fire; those two
checks precede the `extract_regardless` check in the code and may still
report already-done. -/
theorem oracle_unconditional_amended (st : FileState) (path : List Char)
    (hrec : st.sidecarRecord = false)
    (hext : ass_ext_guard path = false) :
    ass_already_extracted true st path = false ∧
    srt_already_extracted true st = false := by
  unfold ass_already_extracted srt_already_extracted
  rw [hrec, hext]
  cases st.probeOk <;> simp [ass_decision_tail]

theorem oracle_unconditional_amended_witness :
    ass_already_extracted true ⟨false, true, cs "extracted", [], true, true⟩
      (cs "/a/movie.mkv") = false ∧
    srt_already_extracted true ⟨false, true, cs "extracted", [], true, true⟩ = false :=
  oracle_unconditional_amended ⟨false, true, cs "extracted", [], true, true⟩
    (cs "/a/movie.mkv") rfl (by decide)

/-- C5: for every file that probes successfully as video, when at least one
matching `.ass` sidecar artifact exists on disk and `extract_regardless` is
false, the ASS oracle reports already-done and the worker never builds or
runs an extraction command (`exec_command` is set to `None`). -/
theorem ass_artifacts_short_circuit (w : WorkerInputs)
    (hprobe : w.st.probeOk = true)
    (hart : w.st.assArtifacts = true)
    (her : w.extract_regardless = false) :
    ass_already_extracted w.extract_regardless w.st w.file_in = true ∧
    (ass_on_worker_process w).execCommand = none ∧
    (ass_on_worker_process w).extractionRan = false := by
  have horacle : ass_already_extracted w.extract_regardless w.st w.file_in = true := by
    unfold ass_already_extracted ass_decision_tail
    rw [her, hprobe, hart]
    cases w.st.sidecarRecord <;> cases hg : ass_ext_guard w.file_in <;>
      by_cases htag : lowerStr w.st.formatTag = cs "extracted" <;> simp [htag]
  refine ⟨horacle, ?_, ?_⟩ <;>
  · unfold ass_on_worker_process
    rw [hprobe, horacle]
    simp

theorem ass_artifacts_short_circuit_witness :
    ass_already_extracted false ⟨false, true, [], [], true, false⟩ (cs "/a/movie.mkv") = true ∧
    (ass_on_worker_process ⟨⟨false, true, [], [], true, false⟩, false, [],
      cs "/a/movie.mkv", cs "/a/movie.mkv", cs "/tmp/cache/movie.mkv", [],
      true, [], true, true⟩).execCommand = none ∧
    (ass_on_worker_process ⟨⟨false, true, [], [], true, false⟩, false, [],
      cs "/a/movie.mkv", cs "/a/movie.mkv", cs "/tmp/cache/movie.mkv", [],
      true, [], true, true⟩).extractionRan = false :=
  ass_artifacts_short_circuit ⟨⟨false, true, [], [], true, false⟩, false, [],
    cs "/a/movie.mkv", cs "/a/movie.mkv", cs "/tmp/cache/movie.mkv", [],
    true, [], true, true⟩ rfl rfl rfl

/-- C9: the SRT variant computes the metadata temporary path by replacing
every occurrence of ".mkv" in the input path with "_temp.mkv"; hence for
every input path not containing ".mkv" the temporary path equals the input
path itself. -/
theorem srt_temp_output_id_of_no_mkv (s : List Char)
    (h : hasSubstring (cs ".mkv") s = false) : srt_temp_output s = s :=
  pyReplace_of_not_sub (cs ".mkv") (cs "_temp.mkv") s h

theorem srt_temp_output_id_of_no_mkv_witness :
    hasSubstring (cs ".mkv") (cs "/data/movie.avi") = false ∧
      srt_temp_output (cs "/data/movie.avi") = cs "/data/movie.avi" :=
  ⟨by decide, srt_temp_output_id_of_no_mkv (cs "/data/movie.avi") (by decide)⟩

/-- C10: the ASS oracle's non-MKV short-circuit fires exactly when the
path's extension is non-empty and differs from "mkv" case-insensitively;
for a path with no extension at all the oracle does not return already-done
at this check but continues with the remaining decision chain. -/
theorem ass_ext_guard_only_nonempty_non_mkv (path : List Char) (er : Bool) (st : FileState)
    (hrec : st.sidecarRecord = false) (hprobe : st.probeOk = true) :
    (ass_ext_guard path = true ↔
      ((splitextExt path).drop 1 ≠ [] ∧
        lowerStr ((splitextExt path).drop 1) ≠ cs "mkv")) ∧
    (splitextExt path = [] →
      ass_already_extracted er st path = ass_decision_tail er st) := by
  constructor
  · have hiff : ass_ext_guard path = true ↔
        (lowerStr ((splitextExt path).drop 1) ≠ [] ∧
          lowerStr (lowerStr ((splitextExt path).drop 1)) ≠ cs "mkv") := by
      simp [ass_ext_guard]
    rw [hiff, lowerStr_idem]
    constructor
    · rintro ⟨h1, h2⟩
      exact ⟨fun hnil => h1 (by rw [hnil]; rfl), h2⟩
    · rintro ⟨h1, h2⟩
      refine ⟨fun hl => h1 ?_, h2⟩
      exact List.map_eq_nil_iff.mp hl
  · intro hse
    have hg : ass_ext_guard path = false := by
      simp [ass_ext_guard, hse, lowerStr]
    unfold ass_already_extracted
    rw [hrec, hprobe, hg]
    simp

theorem ass_ext_guard_only_nonempty_non_mkv_witness :
    ((ass_ext_guard (cs "/data/movie") = true ↔
      ((splitextExt (cs "/data/movie")).drop 1 ≠ [] ∧
        lowerStr ((splitextExt (cs "/data/movie")).drop 1) ≠ cs "mkv")) ∧
    (splitextExt (cs "/data/movie") = [] →
      ass_already_extracted false ⟨false, true, [], [], false, false⟩ (cs "/data/movie")
        = ass_decision_tail false ⟨false, true, [], [], false, false⟩)) ∧
    splitextExt (cs "/data/movie") = [] :=
  ⟨ass_ext_guard_only_nonempty_non_mkv (cs "/data/movie") false
    ⟨false, true, [], [], false, false⟩ rfl rfl, by decide⟩

/-- C3 counterexample: in the SRT variant the metadata temporary is derived
from the input path (`abspath.replace(".mkv", "_temp.mkv")`), so it sits
next to the original file and not inside the cache directory — here with
cache directory `/tmp/cache` (the dirname of `file_out`) and input
`/library/movie.mkv`. -/
theorem srt_temp_path_counterexample :
    dirnameOf (cs "/tmp/cache/movie.mkv") = cs "/tmp/cache" ∧
    srt_temp_output (cs "/library/movie.mkv") = cs "/library/movie_temp.mkv" ∧
    (cs "/tmp/cache/").isPrefixOf (srt_temp_output (cs "/library/movie.mkv")) = false :=
  ⟨by decide, by decide, by decide⟩

/-- C3 amended: the ASS variant writes the tagged copy to a temporary path
directly inside the cache directory, while the SRT variant derives its
temporary from the input path (not in the cache directory); in both
variants the original file is replaced only after the metadata-write
command exits successfully, so a failing metadata write leaves the original
unchanged. -/
theorem metadata_temp_and_replace_amended (w : WorkerInputs)
    (hcache1 : dirnameOf w.file_out ≠ [])
    (hcache2 : (dirnameOf w.file_out).getLast? ≠ some '/')
    (hmeta : w.metaExitOk = false) :
    (∃ name, '/' ∉ name ∧
      ass_temp_output w.file_out w.file_in = dirnameOf w.file_out ++ '/' :: name) ∧
    (ass_on_worker_process w).replacePerformed = false ∧
    (srt_on_worker_process w).replacePerformed = false := by
  have hb : '/' ∉ basenameOf w.file_in := by
    intro hm
    unfold basenameOf at hm
    rw [List.mem_reverse] at hm
    simpa using List.mem_takeWhile_imp hm
  have hname : '/' ∉ splitextRoot (basenameOf w.file_in) ++ cs "_temp.mkv" := by
    intro hm
    rcases List.mem_append.mp hm with h | h
    · unfold splitextRoot at h
      exact hb (List.take_subset _ _ h)
    · revert h
      decide
  refine ⟨⟨splitextRoot (basenameOf w.file_in) ++ cs "_temp.mkv", hname, ?_⟩, ?_, ?_⟩
  · unfold ass_temp_output pyJoin
    rw [if_neg, if_neg]
    · rintro (h | h)
      · exact hcache1 h
      · exact hcache2 h
    · intro hh
      apply hname
      cases hn : splitextRoot (basenameOf w.file_in) ++ cs "_temp.mkv" with
      | nil => rw [hn] at hh; simp at hh
      | cons a l =>
        rw [hn] at hh
        simp only [List.head?_cons, Option.some.injEq] at hh
        rw [hh]
        exact List.mem_cons_self '/' l
  · unfold ass_on_worker_process
    rw [hmeta]
    split_ifs <;> simp
  · unfold srt_on_worker_process
    rw [hmeta]
    split_ifs <;> simp

theorem metadata_temp_and_replace_amended_witness :
    ((∃ name, '/' ∉ name ∧
      ass_temp_output (cs "/tmp/cache/movie.mkv") (cs "/library/movie.mkv")
        = dirnameOf (cs "/tmp/cache/movie.mkv") ++ '/' :: name) ∧
    (ass_on_worker_process ⟨⟨false, true, [], [], false, false⟩, false, [],
      cs "/library/movie.mkv", cs "/library/movie.mkv", cs "/tmp/cache/movie.mkv", [],
      true, [], false, true⟩).replacePerformed = false ∧
    (srt_on_worker_process ⟨⟨false, true, [], [], false, false⟩, false, [],
      cs "/library/movie.mkv", cs "/library/movie.mkv", cs "/tmp/cache/movie.mkv", [],
      true, [], false, true⟩).replacePerformed = false) :=
  metadata_temp_and_replace_amended ⟨⟨false, true, [], [], false, false⟩, false, [],
    cs "/library/movie.mkv", cs "/library/movie.mkv", cs "/tmp/cache/movie.mkv", [],
    true, [], false, true⟩ (by decide) (by decide) rfl

/-- C4: when the extraction command exits non-zero, the worker proceeds to
the metadata-tagging step iff the diagnostics contain both
"Stream map '0:s:" and "matches no streams"; for any other non-zero exit it
returns immediately with no metadata write attempted.  The diagnostic
"Stream map '0:s:2' matches no streams" is classified benign, not fatal. -/
theorem nonzero_exit_metadata_iff_benign (w : WorkerInputs)
    (hprobe : w.st.probeOk = true)
    (hassOracle : ass_already_extracted w.extract_regardless w.st w.file_in = false)
    (hsrtOracle : srt_already_extracted w.extract_regardless w.st = false)
    (hassNeed : streams_need_processing assCodecs w.cfg w.st.streams = true)
    (hsrtNeed : streams_need_processing srtCodecs w.cfg w.st.streams = true)
    (hexit : w.extractExitOk = false) :
    ((ass_on_worker_process w).metadataAttempted = benign_map_error w.extractStderr) ∧
    ((srt_on_worker_process w).metadataAttempted = benign_map_error w.extractStderr) ∧
    benign_map_error (cs "Stream map " ++ squote :: cs "0:s:2" ++ squote ::
      cs " matches no streams") = true := by
  refine ⟨?_, ?_, by decide⟩
  · unfold ass_on_worker_process
    rw [hprobe, hassOracle, hassNeed, hexit]
    cases benign_map_error w.extractStderr <;> simp
  · unfold srt_on_worker_process
    rw [hprobe, hsrtOracle, hsrtNeed, hexit]
    cases benign_map_error w.extractStderr <;> simp

theorem nonzero_exit_metadata_iff_benign_witness :
    ((ass_on_worker_process ⟨⟨false, true, [],
        [⟨cs "subtitle", cs "ass", []⟩, ⟨cs "subtitle", cs "subrip", []⟩], false, false⟩,
      false, [], cs "/a/m.mkv", cs "/a/m.mkv", cs "/c/m.mkv", [], false,
      cs "Stream map " ++ squote :: cs "0:s:2" ++ squote :: cs " matches no streams",
      false, false⟩).metadataAttempted
        = benign_map_error (cs "Stream map " ++ squote :: cs "0:s:2" ++ squote ::
            cs " matches no streams")) ∧
    ((srt_on_worker_process ⟨⟨false, true, [],
        [⟨cs "subtitle", cs "ass", []⟩, ⟨cs "subtitle", cs "subrip", []⟩], false, false⟩,
      false, [], cs "/a/m.mkv", cs "/a/m.mkv", cs "/c/m.mkv", [], false,
      cs "Stream map " ++ squote :: cs "0:s:2" ++ squote :: cs " matches no streams",
      false, false⟩).metadataAttempted
        = benign_map_error (cs "Stream map " ++ squote :: cs "0:s:2" ++ squote ::
            cs " matches no streams")) ∧
    benign_map_error (cs "Stream map " ++ squote :: cs "0:s:2" ++ squote ::
      cs " matches no streams") = true :=
  nonzero_exit_metadata_iff_benign ⟨⟨false, true, [],
      [⟨cs "subtitle", cs "ass", []⟩, ⟨cs "subtitle", cs "subrip", []⟩], false, false⟩,
    false, [], cs "/a/m.mkv", cs "/a/m.mkv", cs "/c/m.mkv", [], false,
    cs "Stream map " ++ squote :: cs "0:s:2" ++ squote :: cs " matches no streams",
    false, false⟩ rfl (by decide) (by decide) (by decide) (by decide) rfl

end ExtractSubs
